import Mathlib

/-!
Verification of the balance computation and debt-minimization core of the
group-bills application ("SplitStuff").

The embedded code is the `balances` and `recommendedTransfers` computations
of the group page component: balances folds expenses (with their splits) and
settled settlements into a per-member signed balance record keyed by the
group's member ids, and recommendedTransfers greedily matches the largest
remaining debtor against the largest remaining creditor to produce a list of
suggested payments.

Monetary amounts are JavaScript numbers in the source; they are modelled here
as rationals (ℚ), with the source's epsilon tolerance 0.01 kept as the
rational 1/100.
-/

namespace GroupBills

/-- One row of `expense_splits` as consumed by the balance computation:
the member who owes the share, and the share amount. -/
structure ExpenseSplit where
  user_id : String
  share_amount : ℚ
deriving DecidableEq

/-- One expense as consumed by the balance computation: total amount, the
member who paid, and the owned splits. -/
structure Expense where
  paid_by : String
  amount : ℚ
  expense_splits : List ExpenseSplit
deriving DecidableEq

/-- One settlement row: payer, receiver, amount and status
("pending" or "settled"). -/
structure Settlement where
  payer_id : String
  receiver_id : String
  amount : ℚ
  status : String
deriving DecidableEq

/-- A suggested payment produced by the planner. The source fields are
`from` and `to`; `from` is a Lean keyword, so they are named `tfrom` and
`tto` here. -/
structure Transfer where
  tfrom : String
  tto : String
  amount : ℚ
deriving DecidableEq

/-- A working entry of the planner's creditor/debtor lists
(`{ userId, amount }` objects in the source). -/
structure Entry where
  userId : String
  amount : ℚ
deriving DecidableEq

/-- The balance record `byUser` is modelled as a function `String → ℚ`
together with the member list `M`: the source's
`byUser.hasOwnProperty u` is `u ∈ M` (keys are created exactly for the
members, and every later write is guarded by `hasOwnProperty`).

`applySplit` is the body of the inner `splits.forEach` loop:
```
if (!byUser.hasOwnProperty(split.user_id)) return;
byUser[split.user_id] -= split.share_amount;
if (byUser.hasOwnProperty(exp.paid_by)) {
  byUser[exp.paid_by] += split.share_amount;
}
```
-/
def applySplit (M : List String) (paid_by : String) (b : String → ℚ)
    (s : ExpenseSplit) : String → ℚ :=
  if s.user_id ∈ M then
    let b1 : String → ℚ := fun u => if u = s.user_id then b u - s.share_amount else b u
    if paid_by ∈ M then
      fun u => if u = paid_by then b1 u + s.share_amount else b1 u
    else b1
  else b

/-- The body of the `(expenses ?? []).forEach` loop: fold the expense's
splits into the record. -/
def applyExpense (M : List String) (b : String → ℚ) (exp : Expense) : String → ℚ :=
  exp.expense_splits.foldl (applySplit M exp.paid_by) b

/-- The body of the `(settlements ?? []).forEach` loop:
```
if (s.status !== "settled") return;
if (!byUser.hasOwnProperty(s.payer_id) || !byUser.hasOwnProperty(s.receiver_id)) return;
byUser[s.payer_id] += s.amount;
byUser[s.receiver_id] -= s.amount;
```
-/
def applySettlement (M : List String) (b : String → ℚ) (s : Settlement) : String → ℚ :=
  if s.status = "settled" then
    if s.payer_id ∈ M ∧ s.receiver_id ∈ M then
      let b1 : String → ℚ := fun u => if u = s.payer_id then b u + s.amount else b u
      fun u => if u = s.receiver_id then b1 u - s.amount else b1 u
    else b
  else b

/-- The `balances` useMemo: initialize every member to 0, fold the expenses'
splits, then fold the settled settlements. The value of the resulting
function at a non-member string is irrelevant (the record has no such key);
all theorems only read it at members. -/
def balancesFn (M : List String) (expenses : List Expense)
    (settlements : List Settlement) : String → ℚ :=
  let b0 : String → ℚ := fun _ => 0
  let b1 := expenses.foldl (applyExpense M) b0
  settlements.foldl (applySettlement M) b1

/-- `Object.entries(balances)`: the record's keys are exactly the members,
in member-list insertion order. -/
def balancesList (M : List String) (expenses : List Expense)
    (settlements : List Settlement) : List (String × ℚ) :=
  M.map fun u => (u, balancesFn M expenses settlements u)

/-- The planner's tolerance, `0.01` in the source. -/
def eps : ℚ := 1 / 100

/-- The creditor partition of `Object.entries(balances)`: entries with
`value > 0.01`, in entry order, keeping the positive amount. -/
def creditorsOf (bs : List (String × ℚ)) : List Entry :=
  bs.filterMap fun p => if eps < p.2 then some ⟨p.1, p.2⟩ else none

/-- The debtor partition: entries with `value < -0.01`, in entry order,
negated to a positive owed amount (`amount: -value`). -/
def debtorsOf (bs : List (String × ℚ)) : List Entry :=
  bs.filterMap fun p => if p.2 < -eps then some ⟨p.1, -p.2⟩ else none

/-- Stable insertion of an entry into a list sorted descending by amount:
the new entry goes after every existing entry of greater-or-equal amount.
This is the placement `Array.prototype.sort` (a stable sort since ES2019)
gives with the source's comparator `(a, b) => b.amount - a.amount`. -/
def insertDesc (e : Entry) : List Entry → List Entry
  | [] => [e]
  | x :: xs => if x.amount < e.amount then e :: x :: xs else x :: insertDesc e xs

/-- Stable descending-by-amount sort, modelling
`arr.sort((a, b) => b.amount - a.amount)`. A stable sort is determined
uniquely by the comparator, so insertion sort is extensionally the same
function as the engine's stable sort. -/
def sortByAmountDesc (l : List Entry) : List Entry :=
  l.foldl (fun acc e => insertDesc e acc) []

/-- The planner's two-pointer sweep:
```
while (i < debtors.length && j < creditors.length) {
  const d = debtors[i]; const c = creditors[j];
  const amount = Math.min(d.amount, c.amount);
  transfers.push({ from: d.userId, to: c.userId, amount });
  d.amount -= amount; c.amount -= amount;
  if (d.amount < 0.01) i++;
  if (c.amount < 0.01) j++;
}
```
The two lists hold the entries from the pointers on, with the current
(possibly decremented) entries at the heads. The fuel argument only bounds
the number of iterations: every reachable iteration zeroes at least one head
(the `min`), so at least one pointer advances and the total remaining length
drops by at least one per unit of fuel; with fuel `debtors.length +
creditors.length` (see `recommendedTransfers`) fuel can reach 0 only with
both lists empty, where the loop is over anyway. The fourth branch below
(neither remainder below eps) is unreachable, since one remainder is 0. -/
def sweepFuel : Nat → List Entry → List Entry → List Transfer
  | 0, _, _ => []
  | _ + 1, [], _ => []
  | _ + 1, _ :: _, [] => []
  | n + 1, d :: ds, c :: cs =>
    let a := min d.amount c.amount
    let t : Transfer := ⟨d.userId, c.userId, a⟩
    let dRem := d.amount - a
    let cRem := c.amount - a
    if dRem < eps then
      if cRem < eps then t :: sweepFuel n ds cs
      else t :: sweepFuel n ds (⟨c.userId, cRem⟩ :: cs)
    else
      if cRem < eps then t :: sweepFuel n (⟨d.userId, dRem⟩ :: ds) cs
      else t :: sweepFuel n (⟨d.userId, dRem⟩ :: ds) (⟨c.userId, cRem⟩ :: cs)

/-- The `recommendedTransfers` useMemo: partition the balance entries into
creditors and debtors, sort each descending by amount (stable), then run the
greedy two-pointer sweep. -/
def recommendedTransfers (bs : List (String × ℚ)) : List Transfer :=
  let creditors := sortByAmountDesc (creditorsOf bs)
  let debtors := sortByAmountDesc (debtorsOf bs)
  sweepFuel (debtors.length + creditors.length) debtors creditors

/-- Applying one suggested transfer to a balance record, the way the balance
computation applies a settled settlement with payer `tfrom` and receiver
`tto` (lines 147–152 of the source): the payer's balance rises by the amount
(their debt shrinks), the receiver's falls. -/
def applyTransfer (b : String → ℚ) (t : Transfer) : String → ℚ :=
  let b1 : String → ℚ := fun u => if u = t.tfrom then b u + t.amount else b u
  fun u => if u = t.tto then b1 u - t.amount else b1 u

/-- Applying a whole transfer plan to a balance record. -/
def applyTransfers (ts : List Transfer) (b : String → ℚ) : String → ℚ :=
  ts.foldl applyTransfer b

/-- Total amount sent by member `u` in a transfer plan. -/
def sentBy (ts : List Transfer) (u : String) : ℚ :=
  ((ts.filter fun t => t.tfrom = u).map Transfer.amount).sum

/-- Total amount received by member `u` in a transfer plan. -/
def recdBy (ts : List Transfer) (u : String) : ℚ :=
  ((ts.filter fun t => t.tto = u).map Transfer.amount).sum

/-- Total amount carried by the entries of `u` in a planner working list. -/
def amtOf (l : List Entry) (u : String) : ℚ :=
  ((l.filter fun e => e.userId = u).map Entry.amount).sum

/-- Sum of the amounts of a planner working list. -/
def entSum (l : List Entry) : ℚ := (l.map Entry.amount).sum

/-- Sum of a balance record over the member list. -/
def sumOver (M : List String) (b : String → ℚ) : ℚ := (M.map b).sum

end GroupBills

namespace GroupBills

/-! ### Sum-preservation lemmas for the balance fold -/

lemma sumOver_congr (M : List String) {b b' : String → ℚ}
    (h : ∀ u ∈ M, b u = b' u) : sumOver M b = sumOver M b' := by
  unfold sumOver
  rw [List.map_congr_left h]

lemma sumOver_update (M : List String) (hM : M.Nodup) {x : String} (hx : x ∈ M)
    (b : String → ℚ) (c : ℚ) :
    sumOver M (fun u => if u = x then c else b u) = sumOver M b + (c - b x) := by
  induction M with
  | nil => cases hx
  | cons y t ih =>
    rcases List.nodup_cons.mp hM with ⟨hy, ht⟩
    rcases List.mem_cons.mp hx with hyx | hxt
    · subst hyx
      have htail : ∀ u ∈ t, (if u = x then c else b u) = b u := by
        intro u hu
        have : u ≠ x := fun h => hy (h ▸ hu)
        simp [this]
      simp only [sumOver, List.map_cons, List.sum_cons, if_pos rfl]
      rw [List.map_congr_left htail]
      show c + (t.map b).sum = (b x + (t.map b).sum) + (c - b x)
      ring
    · have hyx : y ≠ x := fun h => hy (h ▸ hxt)
      simp only [sumOver, List.map_cons, List.sum_cons, if_neg hyx]
      have := ih ht hxt
      simp only [sumOver] at this
      rw [this]
      ring

lemma sumOver_add_at (M : List String) (hM : M.Nodup) {x : String} (hx : x ∈ M)
    (b : String → ℚ) (δ : ℚ) :
    sumOver M (fun u => if u = x then b u + δ else b u) = sumOver M b + δ := by
  have h1 : sumOver M (fun u => if u = x then b u + δ else b u)
      = sumOver M (fun u => if u = x then b x + δ else b u) := by
    apply sumOver_congr
    intro u _
    by_cases h : u = x <;> simp [h]
  rw [h1, sumOver_update M hM hx b (b x + δ)]
  ring

lemma sumOver_sub_at (M : List String) (hM : M.Nodup) {x : String} (hx : x ∈ M)
    (b : String → ℚ) (δ : ℚ) :
    sumOver M (fun u => if u = x then b u - δ else b u) = sumOver M b - δ := by
  have h1 : sumOver M (fun u => if u = x then b u - δ else b u)
      = sumOver M (fun u => if u = x then b x - δ else b u) := by
    apply sumOver_congr
    intro u _
    by_cases h : u = x <;> simp [h]
  rw [h1, sumOver_update M hM hx b (b x - δ)]
  ring

lemma sumOver_applySplit (M : List String) (hM : M.Nodup) {p : String} (hp : p ∈ M)
    (b : String → ℚ) (s : ExpenseSplit) :
    sumOver M (applySplit M p b s) = sumOver M b := by
  unfold applySplit
  by_cases hs : s.user_id ∈ M
  · simp only [if_pos hs, if_pos hp]
    rw [sumOver_add_at M hM hp _ s.share_amount,
      sumOver_sub_at M hM hs b s.share_amount]
    ring
  · simp [hs]

lemma sumOver_splits_fold (M : List String) (hM : M.Nodup) {p : String} (hp : p ∈ M) :
    ∀ (l : List ExpenseSplit) (b : String → ℚ),
      sumOver M (l.foldl (applySplit M p) b) = sumOver M b := by
  intro l
  induction l with
  | nil => intro b; rfl
  | cons s t ih =>
    intro b
    simp only [List.foldl_cons]
    rw [ih (applySplit M p b s), sumOver_applySplit M hM hp b s]

lemma sumOver_applyExpense (M : List String) (hM : M.Nodup) (b : String → ℚ)
    {e : Expense} (hp : e.paid_by ∈ M) :
    sumOver M (applyExpense M b e) = sumOver M b :=
  sumOver_splits_fold M hM hp e.expense_splits b

lemma sumOver_applySettlement (M : List String) (hM : M.Nodup) (b : String → ℚ)
    (s : Settlement) :
    sumOver M (applySettlement M b s) = sumOver M b := by
  unfold applySettlement
  by_cases hst : s.status = "settled"
  · simp only [if_pos hst]
    by_cases hmem : s.payer_id ∈ M ∧ s.receiver_id ∈ M
    · simp only [if_pos hmem]
      rw [sumOver_sub_at M hM hmem.2 _ s.amount,
        sumOver_add_at M hM hmem.1 b s.amount]
      ring
    · simp [hmem]
  · simp [hst]

lemma sumOver_expenses_fold (M : List String) (hM : M.Nodup) :
    ∀ (E : List Expense), (∀ e ∈ E, e.paid_by ∈ M) → ∀ b : String → ℚ,
      sumOver M (E.foldl (applyExpense M) b) = sumOver M b := by
  intro E
  induction E with
  | nil => intro _ b; rfl
  | cons e t ih =>
    intro hpay b
    simp only [List.foldl_cons]
    rw [ih (fun x hx => hpay x (List.mem_cons_of_mem e hx)) (applyExpense M b e),
      sumOver_applyExpense M hM b (hpay e (List.mem_cons_self e t))]

lemma sumOver_settlements_fold (M : List String) (hM : M.Nodup) :
    ∀ (S : List Settlement) (b : String → ℚ),
      sumOver M (S.foldl (applySettlement M) b) = sumOver M b := by
  intro S
  induction S with
  | nil => intro b; rfl
  | cons s t ih =>
    intro b
    simp only [List.foldl_cons]
    rw [ih (applySettlement M b s), sumOver_applySettlement M hM b s]

lemma sumOver_zero (M : List String) : sumOver M (fun _ => (0 : ℚ)) = 0 := by
  induction M with
  | nil => rfl
  | cons y t ih => simp only [sumOver, List.map_cons, List.sum_cons] at *; rw [ih]; ring

end GroupBills

namespace GroupBills

/-! ### C1: conservation -/

/-- C1 (counterexample): the sum of the computed balances is NOT always
zero. With the single member "X" and one expense paid by the outsider "Z"
carrying a split of 100 for "X", the split debits "X" (the sharer is a
member) but the matching credit to "Z" is dropped (the payer is not), so
the member-wise sum is −100. -/
theorem conservation_cex :
    sumOver ["X"] (balancesFn ["X"] [⟨"Z", 100, [⟨"X", 100⟩]⟩] []) = -100 ∧
    sumOver ["X"] (balancesFn ["X"] [⟨"Z", 100, [⟨"X", 100⟩]⟩] []) ≠ 0 := by
  constructor
  · simp only [sumOver, balancesFn, applyExpense, applySplit, List.foldl, List.map,
      List.mem_cons, List.mem_singleton, String.reduceEq, ite_true, ite_false]
    norm_num
  · simp only [sumOver, balancesFn, applyExpense, applySplit, List.foldl, List.map,
      List.mem_cons, List.mem_singleton, String.reduceEq, ite_true, ite_false]
    norm_num

/-- C1 (amended): for every duplicate-free members set `M` and every list of
expenses and settlements in which each expense's payer belongs to `M`, the
sum over the members of the computed balance map is exactly zero. -/
theorem conservation_of_balances (M : List String) (hM : M.Nodup)
    (E : List Expense) (S : List Settlement)
    (hpay : ∀ e ∈ E, e.paid_by ∈ M) :
    sumOver M (balancesFn M E S) = 0 := by
  unfold balancesFn
  rw [sumOver_settlements_fold M hM S, sumOver_expenses_fold M hM E hpay,
    sumOver_zero]

/-- Witness for `conservation_of_balances` at a concrete input: two members,
one expense of 10 paid by "A" split 5/5, one settled settlement. -/
theorem conservation_of_balances_witness :
    sumOver ["A", "B"] (balancesFn ["A", "B"]
      [⟨"A", 10, [⟨"A", 5⟩, ⟨"B", 5⟩]⟩] [⟨"B", "A", 5, "settled"⟩]) = 0 :=
  conservation_of_balances ["A", "B"] (by decide)
    [⟨"A", 10, [⟨"A", 5⟩, ⟨"B", 5⟩]⟩] [⟨"B", "A", 5, "settled"⟩]
    (by intro e he; fin_cases he; decide)

end GroupBills

namespace GroupBills

/-! ### C2: per-split update discipline -/

/-- C2 (counterexample): a split whose sharer is a member but whose payer is
not does change a balance: the sharer is debited while the payer credit is
dropped, so "neither balance changes when either is outside the set" fails.
Member set {"X"}, payer "Z" (outside), split of 100 for "X". -/
theorem split_both_or_neither_cex :
    applySplit ["X"] "Z" (fun _ => 0) ⟨"X", 100⟩ "X" = -100 ∧
    applySplit ["X"] "Z" (fun _ => 0) ⟨"X", 100⟩ "X" ≠ 0 := by
  constructor
  · simp only [applySplit, List.mem_cons, List.mem_singleton, String.reduceEq,
      ite_true, ite_false]
    norm_num
  · simp only [applySplit, List.mem_cons, List.mem_singleton, String.reduceEq,
      ite_true, ite_false]
    norm_num

/-- C2 (amended): for every split, the share is subtracted from the sharer's
balance whenever the sharer is in the known-members set, and added to the
payer's balance only when the payer is (additionally) in the set; when the
sharer is outside the set nothing changes. Stated as a single delta formula
for the balance of every string `u`. -/
theorem split_effect (M : List String) (p : String) (b : String → ℚ)
    (s : ExpenseSplit) (u : String) :
    applySplit M p b s u = b u +
      (if s.user_id ∈ M then
        (if u = p ∧ p ∈ M then s.share_amount else 0)
          - (if u = s.user_id then s.share_amount else 0)
      else 0) := by
  unfold applySplit
  by_cases hs : s.user_id ∈ M
  · by_cases hp : p ∈ M
    · by_cases hup : u = p
      · by_cases hus : u = s.user_id
        · have h2 : p = s.user_id := hup.symm.trans hus
          simp [hs, hp, hup, h2]
        · have h2 : p ≠ s.user_id := fun h => hus (hup.trans h)
          simp [hs, hp, hup, h2]
      · by_cases hus : u = s.user_id
        · have h2 : s.user_id ≠ p := fun h => hup (hus.trans h)
          simp [hs, hp, hup, hus, h2]
          ring
        · simp [hs, hp, hup, hus]
    · by_cases hus : u = s.user_id
      · simp [hs, hp, hus]
        ring
      · simp [hs, hp, hus]
  · simp [hs]

/-! ### C10: settlement atomicity -/

/-- C10: a settled settlement whose payer or receiver lies outside the
known-members set changes no balance at all: the payer credit and receiver
debit are guarded by a single both-members test, so a partially resolvable
settlement is a no-op. -/
theorem settlement_atomicity (M : List String) (b : String → ℚ) (s : Settlement)
    (hst : s.status = "settled") (h : s.payer_id ∉ M ∨ s.receiver_id ∉ M) :
    ∀ u, applySettlement M b s u = b u := by
  intro u
  have hmem : ¬(s.payer_id ∈ M ∧ s.receiver_id ∈ M) := by tauto
  simp [applySettlement, hst, hmem]

/-- Witness for `settlement_atomicity`: members {"A"}, settled settlement
from the outsider "B" to "A" of 5 over the constant-7 record. -/
theorem settlement_atomicity_witness :
    applySettlement ["A"] (fun _ => 7) ⟨"B", "A", 5, "settled"⟩ "A" = 7 :=
  settlement_atomicity ["A"] (fun _ => 7) ⟨"B", "A", 5, "settled"⟩ rfl
    (Or.inl (by decide)) "A"

/-! ### C7: self-pay neutrality -/

lemma applySplit_self (M : List String) (P : String) (b : String → ℚ) (share : ℚ) :
    applySplit M P b ⟨P, share⟩ = b := by
  unfold applySplit
  by_cases hP : P ∈ M
  · simp only [if_pos hP]
    funext u
    by_cases hu : u = P <;> simp [hu]
  · simp [hP]

lemma applyExpense_self (M : List String) (b : String → ℚ) (P : String)
    (amt share : ℚ) :
    applyExpense M b ⟨P, amt, [⟨P, share⟩]⟩ = b := by
  unfold applyExpense
  simp only [List.foldl_cons, List.foldl_nil]
  exact applySplit_self M P b share

/-- C7: appending an expense whose payer is also its sole split participant
leaves every member's computed balance unchanged (the debit and the credit
land on the same key and cancel); the computation is total, so such an
expense never fails. -/
theorem self_pay_neutrality (M : List String) (E : List Expense)
    (S : List Settlement) (P : String) (amt share : ℚ) (u : String) :
    balancesFn M (E ++ [⟨P, amt, [⟨P, share⟩]⟩]) S u = balancesFn M E S u := by
  unfold balancesFn
  rw [List.foldl_append]
  simp only [List.foldl_cons, List.foldl_nil]
  rw [applyExpense_self]

/-! ### C6: settlement reversal -/

/-- C6: for members X and Y, an expense-derived debt of A from X to Y (a
split of A for X on an expense paid by Y) together with a settled settlement
of A with payer X and receiver Y leaves X's and Y's balances exactly where
they were without both (namely 0, the empty-history balance). -/
theorem settlement_reversal (M : List String) (X Y : String)
    (hX : X ∈ M) (hY : Y ∈ M) (A : ℚ) :
    balancesFn M [⟨Y, A, [⟨X, A⟩]⟩] [⟨X, Y, A, "settled"⟩] X
        = balancesFn M [] [] X ∧
    balancesFn M [⟨Y, A, [⟨X, A⟩]⟩] [⟨X, Y, A, "settled"⟩] Y
        = balancesFn M [] [] Y := by
  unfold balancesFn applyExpense applySettlement applySplit
  simp only [List.foldl_cons, List.foldl_nil, if_pos hX, if_pos hY,
    if_pos (And.intro hX hY), String.reduceEq, ite_true]
  by_cases hXY : X = Y
  · simp [hXY]
  · have hYX : Y ≠ X := fun h => hXY h.symm
    constructor <;> simp [hXY, hYX]

/-- Witness for `settlement_reversal` at members {"X","Y"} and amount 42. -/
theorem settlement_reversal_witness :
    balancesFn ["X", "Y"] [⟨"Y", 42, [⟨"X", 42⟩]⟩] [⟨"X", "Y", 42, "settled"⟩] "X"
        = balancesFn ["X", "Y"] [] [] "X" ∧
    balancesFn ["X", "Y"] [⟨"Y", 42, [⟨"X", 42⟩]⟩] [⟨"X", "Y", 42, "settled"⟩] "Y"
        = balancesFn ["X", "Y"] [] [] "Y" :=
  settlement_reversal ["X", "Y"] "X" "Y" (by decide) (by decide) 42

end GroupBills

namespace GroupBills

/-! ### Planner helper lemmas -/

lemma eps_pos : (0 : ℚ) < eps := by norm_num [eps]

lemma insertDesc_perm (e : Entry) (l : List Entry) :
    (insertDesc e l).Perm (e :: l) := by
  induction l with
  | nil => exact List.Perm.refl _
  | cons x xs ih =>
    unfold insertDesc
    by_cases h : x.amount < e.amount
    · rw [if_pos h]
    · rw [if_neg h]
      exact (ih.cons x).trans (List.Perm.swap e x xs)

lemma foldl_insertDesc_perm : ∀ (l acc : List Entry),
    (l.foldl (fun acc e => insertDesc e acc) acc).Perm (acc ++ l) := by
  intro l
  induction l with
  | nil => intro acc; simp
  | cons e t ih =>
    intro acc
    simp only [List.foldl_cons]
    refine (ih (insertDesc e acc)).trans ?_
    refine ((insertDesc_perm e acc).append_right t).trans ?_
    simp only [List.cons_append]
    exact List.perm_middle.symm

lemma sortByAmountDesc_perm (l : List Entry) : (sortByAmountDesc l).Perm l := by
  have h := foldl_insertDesc_perm l []
  simpa [sortByAmountDesc] using h

lemma amtOf_of_perm {l l' : List Entry} (h : l.Perm l') (u : String) :
    amtOf l u = amtOf l' u :=
  ((h.filter _).map _).sum_eq

lemma entSum_of_perm {l l' : List Entry} (h : l.Perm l') : entSum l = entSum l' :=
  (h.map _).sum_eq

lemma amtOf_cons (e : Entry) (l : List Entry) (u : String) :
    amtOf (e :: l) u = (if e.userId = u then e.amount else 0) + amtOf l u := by
  by_cases h : e.userId = u <;> simp [amtOf, List.filter_cons, h]

lemma sentBy_cons (t : Transfer) (ts : List Transfer) (u : String) :
    sentBy (t :: ts) u = (if t.tfrom = u then t.amount else 0) + sentBy ts u := by
  by_cases h : t.tfrom = u <;> simp [sentBy, List.filter_cons, h]

lemma recdBy_cons (t : Transfer) (ts : List Transfer) (u : String) :
    recdBy (t :: ts) u = (if t.tto = u then t.amount else 0) + recdBy ts u := by
  by_cases h : t.tto = u <;> simp [recdBy, List.filter_cons, h]

lemma entSum_cons (e : Entry) (l : List Entry) :
    entSum (e :: l) = e.amount + entSum l := by
  simp [entSum]

lemma entSum_nonneg {l : List Entry} (h : ∀ e ∈ l, 0 ≤ e.amount) :
    0 ≤ entSum l := by
  induction l with
  | nil => simp [entSum]
  | cons e t ih =>
    rw [entSum_cons]
    have h1 := h e (List.mem_cons_self e t)
    have h2 := ih fun x hx => h x (List.mem_cons_of_mem e hx)
    linarith

lemma eq_nil_of_entSum_zero {l : List Entry} (h1 : ∀ e ∈ l, 1 ≤ e.amount)
    (h0 : entSum l = 0) : l = [] := by
  cases l with
  | nil => rfl
  | cons e t =>
    exfalso
    rw [entSum_cons] at h0
    have he := h1 e (List.mem_cons_self e t)
    have ht : 0 ≤ entSum t :=
      entSum_nonneg fun x hx =>
        le_trans zero_le_one (h1 x (List.mem_cons_of_mem e hx))
    linarith

/-- `q` is an integer-valued rational. -/
def IsIntQ (q : ℚ) : Prop := ∃ k : ℤ, q = (k : ℚ)

lemma IsIntQ.sub {a b : ℚ} (ha : IsIntQ a) (hb : IsIntQ b) : IsIntQ (a - b) := by
  rcases ha with ⟨m, rfl⟩
  rcases hb with ⟨n, rfl⟩
  exact ⟨m - n, by push_cast; ring⟩

lemma IsIntQ.min {a b : ℚ} (ha : IsIntQ a) (hb : IsIntQ b) : IsIntQ (min a b) := by
  rcases min_choice a b with h | h <;> rw [h] <;> assumption

lemma one_le_of_isIntQ_eps_le {q : ℚ} (hq : IsIntQ q) (h : eps ≤ q) : 1 ≤ q := by
  rcases hq with ⟨k, rfl⟩
  have hk : (0 : ℚ) < k := lt_of_lt_of_le eps_pos h
  have hk0 : 0 < k := by exact_mod_cast hk
  have hk1 : 1 ≤ k := by omega
  exact_mod_cast hk1

lemma eq_zero_of_isIntQ_small {q : ℚ} (hq : IsIntQ q) (h1 : ¬eps < q)
    (h2 : ¬q < -eps) : q = 0 := by
  rcases hq with ⟨k, rfl⟩
  push_neg at h1 h2
  have hub : (k : ℚ) < 1 := lt_of_le_of_lt h1 (by norm_num [eps])
  have hlb : (-1 : ℚ) < k := lt_of_lt_of_le (by norm_num [eps]) h2
  have h3 : k < 1 := by exact_mod_cast hub
  have h4 : -1 < k := by exact_mod_cast hlb
  have h5 : k = 0 := by omega
  rw [h5]
  norm_num

lemma min_rem_cases (d c : ℚ) : d - min d c = 0 ∨ c - min d c = 0 := by
  rcases min_choice d c with h | h
  · left; rw [h]; ring
  · right; rw [h]; ring

/-- An entry of the planner's working lists during the sweep over an
integer-valued balance map: an integer amount of at least 1. -/
def goodEntry (e : Entry) : Prop := IsIntQ e.amount ∧ 1 ≤ e.amount

end GroupBills

namespace GroupBills

lemma sweepFuel_amount_pos : ∀ (n : Nat) (D C : List Entry),
    (∀ e ∈ D, eps ≤ e.amount) → (∀ e ∈ C, eps ≤ e.amount) →
    ∀ t ∈ sweepFuel n D C, 0 < t.amount := by
  intro n
  induction n with
  | zero => intro D C _ _ t ht; simp [sweepFuel] at ht
  | succ n ih =>
    intro D C hD hC t ht
    match D, C with
    | [], C => simp [sweepFuel] at ht
    | d :: ds, [] => simp [sweepFuel] at ht
    | d :: ds, c :: cs =>
      have hd := hD d (List.mem_cons_self d ds)
      have hc := hC c (List.mem_cons_self c cs)
      have hmin : 0 < min d.amount c.amount := lt_of_lt_of_le eps_pos (le_min hd hc)
      have hDtail : ∀ e ∈ ds, eps ≤ e.amount :=
        fun e he => hD e (List.mem_cons_of_mem d he)
      have hCtail : ∀ e ∈ cs, eps ≤ e.amount :=
        fun e he => hC e (List.mem_cons_of_mem c he)
      simp only [sweepFuel] at ht
      split_ifs at ht with h1 h2 h2
      · rcases List.mem_cons.mp ht with rfl | htail
        · exact hmin
        · exact ih ds cs hDtail hCtail t htail
      · rcases List.mem_cons.mp ht with rfl | htail
        · exact hmin
        · refine ih ds (⟨c.userId, c.amount - min d.amount c.amount⟩ :: cs) hDtail ?_ t htail
          intro e he
          rcases List.mem_cons.mp he with rfl | he'
          · exact le_of_not_lt h2
          · exact hCtail e he'
      · rcases List.mem_cons.mp ht with rfl | htail
        · exact hmin
        · refine ih (⟨d.userId, d.amount - min d.amount c.amount⟩ :: ds) cs ?_ hCtail t htail
          intro e he
          rcases List.mem_cons.mp he with rfl | he'
          · exact le_of_not_lt h1
          · exact hDtail e he'
      · exfalso
        rcases min_rem_cases d.amount c.amount with h | h
        · exact h1 (by rw [h]; exact eps_pos)
        · exact h2 (by rw [h]; exact eps_pos)

lemma sweepFuel_length_le : ∀ (n : Nat) (D C : List Entry),
    (sweepFuel n D C).length ≤ D.length + C.length - 1 := by
  intro n
  induction n with
  | zero => intro D C; simp [sweepFuel]
  | succ n ih =>
    intro D C
    match D, C with
    | [], C => simp [sweepFuel]
    | d :: ds, [] => simp [sweepFuel]
    | d :: ds, c :: cs =>
      simp only [sweepFuel]
      split_ifs with h1 h2 h2
      · have h := ih ds cs
        simp only [List.length_cons]
        omega
      · have h := ih ds (⟨c.userId, c.amount - min d.amount c.amount⟩ :: cs)
        simp only [List.length_cons] at h ⊢
        omega
      · have h := ih (⟨d.userId, d.amount - min d.amount c.amount⟩ :: ds) cs
        simp only [List.length_cons] at h ⊢
        omega
      · exfalso
        rcases min_rem_cases d.amount c.amount with h | h
        · exact h1 (by rw [h]; exact eps_pos)
        · exact h2 (by rw [h]; exact eps_pos)

end GroupBills

namespace GroupBills

/-! ### C5: transfer amounts are strictly positive -/

lemma debtorsOf_amount_eps {bs : List (String × ℚ)} {e : Entry}
    (he : e ∈ debtorsOf bs) : eps ≤ e.amount := by
  rcases List.mem_filterMap.mp he with ⟨p, _, hfp⟩
  by_cases hcond : p.2 < -eps
  · rw [if_pos hcond, Option.some_inj] at hfp
    rw [← hfp]
    show eps ≤ -p.2
    linarith
  · rw [if_neg hcond] at hfp
    cases hfp

lemma creditorsOf_amount_eps {bs : List (String × ℚ)} {e : Entry}
    (he : e ∈ creditorsOf bs) : eps ≤ e.amount := by
  rcases List.mem_filterMap.mp he with ⟨p, _, hfp⟩
  by_cases hcond : eps < p.2
  · rw [if_pos hcond, Option.some_inj] at hfp
    rw [← hfp]
    exact le_of_lt hcond
  · rw [if_neg hcond] at hfp
    cases hfp

/-- C5: every transfer produced by the planner carries a strictly positive
amount: both working lists only ever hold entries of amount at least eps,
and each transfer's amount is the minimum of two such entries. -/
theorem transfer_amounts_positive (bs : List (String × ℚ)) :
    ∀ t ∈ recommendedTransfers bs, 0 < t.amount := by
  intro t ht
  simp only [recommendedTransfers] at ht
  refine sweepFuel_amount_pos _ _ _ ?_ ?_ t ht
  · intro e he
    exact debtorsOf_amount_eps ((sortByAmountDesc_perm _).mem_iff.mp he)
  · intro e he
    exact creditorsOf_amount_eps ((sortByAmountDesc_perm _).mem_iff.mp he)

/-- Witness for `transfer_amounts_positive`: the balance map
{A: +2, B: −2} produces the single transfer (B → A, 2), whose amount is
positive. -/
theorem transfer_amounts_positive_witness :
    0 < (Transfer.mk "B" "A" 2).amount :=
  transfer_amounts_positive [("A", 2), ("B", -2)] ⟨"B", "A", 2⟩ (by
    norm_num [recommendedTransfers, creditorsOf, debtorsOf, sortByAmountDesc,
      insertDesc, sweepFuel, eps, List.filterMap])

/-! ### C4: transfer count bound -/

/-- C4 (counterexample): on a balance map with no creditors and no debtors
(the single member "A" is settled at 0) the planner returns 0 transfers,
but the claimed bound is 0 + 0 − 1 = −1, and 0 ≤ −1 is false. -/
theorem transfer_count_bound_cex :
    ¬(((recommendedTransfers [("A", 0)]).length : ℤ) ≤
        ((creditorsOf [("A", 0)]).length : ℤ) +
          ((debtorsOf [("A", 0)]).length : ℤ) - 1) := by
  norm_num [recommendedTransfers, creditorsOf, debtorsOf, sortByAmountDesc,
    insertDesc, sweepFuel, eps, List.filterMap]

/-- C4 (amended): the number of transfers is at most
creditors + debtors − 1 whenever that quantity is nonnegative, i.e. it is
at most max (creditors + debtors − 1) 0 (the original bound fails only on
a map with no creditors and no debtors, where the planner returns 0
transfers but the claimed bound is −1). -/
theorem transfer_count_bound (bs : List (String × ℚ)) :
    ((recommendedTransfers bs).length : ℤ) ≤
      max (((creditorsOf bs).length : ℤ) + ((debtorsOf bs).length : ℤ) - 1) 0 := by
  have hd : (sortByAmountDesc (debtorsOf bs)).length = (debtorsOf bs).length :=
    (sortByAmountDesc_perm _).length_eq
  have hc : (sortByAmountDesc (creditorsOf bs)).length = (creditorsOf bs).length :=
    (sortByAmountDesc_perm _).length_eq
  have h : (recommendedTransfers bs).length ≤
      (debtorsOf bs).length + (creditorsOf bs).length - 1 := by
    simp only [recommendedTransfers]
    refine le_trans (sweepFuel_length_le _ _ _) ?_
    rw [hd, hc]
  rcases max_cases (((creditorsOf bs).length : ℤ) + ((debtorsOf bs).length : ℤ) - 1)
    (0 : ℤ) with ⟨heq, _⟩ | ⟨heq, _⟩ <;> rw [heq] <;> omega

/-! ### C9: epsilon boundary -/

/-- C9: a balance of exactly 0.009 (or −0.009) is excluded from both the
creditor and the debtor partition, while 0.011 is included as a creditor
and −0.011 as a debtor. -/
theorem epsilon_boundary :
    creditorsOf [("A", 9 / 1000)] = [] ∧
    debtorsOf [("A", 9 / 1000)] = [] ∧
    creditorsOf [("A", -(9 / 1000))] = [] ∧
    debtorsOf [("A", -(9 / 1000))] = [] ∧
    creditorsOf [("A", 11 / 1000)] = [⟨"A", 11 / 1000⟩] ∧
    debtorsOf [("A", -(11 / 1000))] = [⟨"A", 11 / 1000⟩] := by
  refine ⟨?_, ?_, ?_, ?_, ?_, ?_⟩ <;>
    norm_num [creditorsOf, debtorsOf, eps, List.filterMap]

end GroupBills

namespace GroupBills

/-! ### C8: concrete scenario -/

/-- C8: members {A, B, C}, one expense of 300 paid by A split 100/100/100
among A, B, C: the balance map is {A: +200, B: −100, C: −100} and the
planner returns exactly the transfers (B → A, 100) and (C → A, 100). -/
theorem concrete_scenario :
    balancesList ["A", "B", "C"]
        [⟨"A", 300, [⟨"A", 100⟩, ⟨"B", 100⟩, ⟨"C", 100⟩]⟩] []
      = [("A", 200), ("B", -100), ("C", -100)] ∧
    recommendedTransfers (balancesList ["A", "B", "C"]
        [⟨"A", 300, [⟨"A", 100⟩, ⟨"B", 100⟩, ⟨"C", 100⟩]⟩] [])
      = [⟨"B", "A", 100⟩, ⟨"C", "A", 100⟩] := by
  have h1 : balancesList ["A", "B", "C"]
      [⟨"A", 300, [⟨"A", 100⟩, ⟨"B", 100⟩, ⟨"C", 100⟩]⟩] []
      = [("A", 200), ("B", -100), ("C", -100)] := by
    simp [balancesList, balancesFn, applyExpense, applySplit, String.reduceEq]
    norm_num
  refine ⟨h1, ?_⟩
  rw [h1]
  norm_num [recommendedTransfers, creditorsOf, debtorsOf, sortByAmountDesc,
    insertDesc, sweepFuel, eps, List.filterMap, String.reduceEq]

end GroupBills

namespace GroupBills

/-! ### C3: transfer validity -/

lemma applyTransfer_eval (b : String → ℚ) (t : Transfer) (u : String) :
    applyTransfer b t u = b u + (if t.tfrom = u then t.amount else 0)
      - (if t.tto = u then t.amount else 0) := by
  by_cases h1 : t.tfrom = u
  · by_cases h2 : t.tto = u
    · simp [applyTransfer, h1, h2]
    · have h2' : ¬(u = t.tto) := fun h => h2 h.symm
      simp [applyTransfer, h1, h2, h2']
  · have h1' : ¬(u = t.tfrom) := fun h => h1 h.symm
    by_cases h2 : t.tto = u
    · simp [applyTransfer, h1, h1', h2]
    · have h2' : ¬(u = t.tto) := fun h => h2 h.symm
      simp [applyTransfer, h1, h1', h2, h2']

lemma applyTransfers_eval : ∀ (ts : List Transfer) (b : String → ℚ) (u : String),
    applyTransfers ts b u = b u + sentBy ts u - recdBy ts u := by
  intro ts
  induction ts with
  | nil => intro b u; simp [applyTransfers, sentBy, recdBy]
  | cons t ts ih =>
    intro b u
    show applyTransfers ts (applyTransfer b t) u = _
    rw [ih (applyTransfer b t) u, applyTransfer_eval, sentBy_cons, recdBy_cons]
    ring

lemma eq_zero_of_isIntQ_nonneg_lt_eps {q : ℚ} (hq : IsIntQ q) (h0 : 0 ≤ q)
    (h1 : q < eps) : q = 0 := by
  rcases hq with ⟨k, rfl⟩
  have hub : (k : ℚ) < 1 := lt_of_lt_of_le h1 (by norm_num [eps])
  have h2 : k < 1 := by exact_mod_cast hub
  have h3 : 0 ≤ k := by exact_mod_cast h0
  have h4 : k = 0 := by omega
  rw [h4]
  norm_num

end GroupBills

namespace GroupBills

/-- Over integer-valued working lists of equal totals, the sweep pays out
every entry exactly: each userId sends precisely its total debtor amount and
receives precisely its total creditor amount. Integrality makes every
remainder that falls below eps exactly 0, so no amount is ever silently
dropped when a pointer advances. -/
lemma sweepFuel_exact : ∀ (n : Nat) (D C : List Entry),
    D.length + C.length ≤ n →
    (∀ e ∈ D, goodEntry e) → (∀ e ∈ C, goodEntry e) →
    entSum D = entSum C →
    ∀ u, sentBy (sweepFuel n D C) u = amtOf D u ∧
      recdBy (sweepFuel n D C) u = amtOf C u := by
  intro n
  induction n with
  | zero =>
    intro D C hn _ _ _ u
    have hD0 : D = [] := List.length_eq_zero.mp (by omega)
    have hC0 : C = [] := List.length_eq_zero.mp (by omega)
    subst hD0
    subst hC0
    simp [sweepFuel, sentBy, recdBy, amtOf]
  | succ n ih =>
    intro D C hn hD hC hsum u
    match D, C with
    | [], C =>
      have hCsum : entSum C = 0 := by
        have h0 : entSum ([] : List Entry) = 0 := by simp [entSum]
        rw [← hsum, h0]
      have hC0 : C = [] := eq_nil_of_entSum_zero (fun e he => (hC e he).2) hCsum
      subst hC0
      simp [sweepFuel, sentBy, recdBy, amtOf]
    | d :: ds, [] =>
      exfalso
      have hDsum : entSum (d :: ds) = 0 := by
        have h0 : entSum ([] : List Entry) = 0 := by simp [entSum]
        rw [hsum, h0]
      have := eq_nil_of_entSum_zero (fun e he => (hD e he).2) hDsum
      simp at this
    | d :: ds, c :: cs =>
      have hgd := hD d (List.mem_cons_self d ds)
      have hgc := hC c (List.mem_cons_self c cs)
      have hDtail : ∀ e ∈ ds, goodEntry e :=
        fun e he => hD e (List.mem_cons_of_mem d he)
      have hCtail : ∀ e ∈ cs, goodEntry e :=
        fun e he => hC e (List.mem_cons_of_mem c he)
      have hmin_int : IsIntQ (min d.amount c.amount) := hgd.1.min hgc.1
      have hdRem_int : IsIntQ (d.amount - min d.amount c.amount) :=
        hgd.1.sub hmin_int
      have hcRem_int : IsIntQ (c.amount - min d.amount c.amount) :=
        hgc.1.sub hmin_int
      have hdRem_nonneg : 0 ≤ d.amount - min d.amount c.amount := by
        have := min_le_left d.amount c.amount
        linarith
      have hcRem_nonneg : 0 ≤ c.amount - min d.amount c.amount := by
        have := min_le_right d.amount c.amount
        linarith
      have hsum' : d.amount + entSum ds = c.amount + entSum cs := by
        rw [entSum_cons, entSum_cons] at hsum
        exact hsum
      simp only [List.length_cons] at hn
      simp only [sweepFuel]
      split_ifs with h1 h2 h2
      · -- both remainders reach 0: the amounts were equal
        have hd0 : d.amount - min d.amount c.amount = 0 :=
          eq_zero_of_isIntQ_nonneg_lt_eps hdRem_int hdRem_nonneg h1
        have hc0 : c.amount - min d.amount c.amount = 0 :=
          eq_zero_of_isIntQ_nonneg_lt_eps hcRem_int hcRem_nonneg h2
        have had : min d.amount c.amount = d.amount := by linarith
        have hac : min d.amount c.amount = c.amount := by linarith
        obtain ⟨ihs, ihr⟩ := ih ds cs (by omega) hDtail hCtail
          (by linarith) u
        constructor
        · rw [sentBy_cons, amtOf_cons, ihs]
          simp only [had]
        · rw [recdBy_cons, amtOf_cons, ihr]
          simp only [hac]
      · -- debtor exhausted, creditor keeps a positive integer remainder
        have hd0 : d.amount - min d.amount c.amount = 0 :=
          eq_zero_of_isIntQ_nonneg_lt_eps hdRem_int hdRem_nonneg h1
        have had : min d.amount c.amount = d.amount := by linarith
        have hcRem_good : goodEntry ⟨c.userId, c.amount - min d.amount c.amount⟩ :=
          ⟨hcRem_int, one_le_of_isIntQ_eps_le hcRem_int (not_lt.mp h2)⟩
        have hC' : ∀ e ∈ (⟨c.userId, c.amount - min d.amount c.amount⟩ :: cs),
            goodEntry e := by
          intro e he
          rcases List.mem_cons.mp he with rfl | he'
          · exact hcRem_good
          · exact hCtail e he'
        have hsum'' : entSum ds
            = entSum (⟨c.userId, c.amount - min d.amount c.amount⟩ :: cs) := by
          rw [entSum_cons]
          show entSum ds = c.amount - min d.amount c.amount + entSum cs
          linarith
        obtain ⟨ihs, ihr⟩ := ih ds (⟨c.userId, c.amount - min d.amount c.amount⟩ :: cs)
          (by simp only [List.length_cons]; omega) hDtail hC' hsum'' u
        constructor
        · rw [sentBy_cons, amtOf_cons, ihs]
          simp only [had]
        · rw [recdBy_cons, amtOf_cons, ihr, amtOf_cons]
          show (if c.userId = u then min d.amount c.amount else 0) +
              ((if c.userId = u then c.amount - min d.amount c.amount else 0) + amtOf cs u)
            = (if c.userId = u then c.amount else 0) + amtOf cs u
          by_cases hcu : c.userId = u
          · simp only [if_pos hcu]
            ring
          · simp only [if_neg hcu]
            ring
      · -- creditor exhausted, debtor keeps a positive integer remainder
        have hc0 : c.amount - min d.amount c.amount = 0 :=
          eq_zero_of_isIntQ_nonneg_lt_eps hcRem_int hcRem_nonneg h2
        have hac : min d.amount c.amount = c.amount := by linarith
        have hdRem_good : goodEntry ⟨d.userId, d.amount - min d.amount c.amount⟩ :=
          ⟨hdRem_int, one_le_of_isIntQ_eps_le hdRem_int (not_lt.mp h1)⟩
        have hD' : ∀ e ∈ (⟨d.userId, d.amount - min d.amount c.amount⟩ :: ds),
            goodEntry e := by
          intro e he
          rcases List.mem_cons.mp he with rfl | he'
          · exact hdRem_good
          · exact hDtail e he'
        have hsum'' : entSum (⟨d.userId, d.amount - min d.amount c.amount⟩ :: ds)
            = entSum cs := by
          rw [entSum_cons]
          show d.amount - min d.amount c.amount + entSum ds = entSum cs
          linarith
        obtain ⟨ihs, ihr⟩ := ih (⟨d.userId, d.amount - min d.amount c.amount⟩ :: ds) cs
          (by simp only [List.length_cons]; omega) hD' hCtail hsum'' u
        constructor
        · rw [sentBy_cons, amtOf_cons, ihs, amtOf_cons]
          show (if d.userId = u then min d.amount c.amount else 0) +
              ((if d.userId = u then d.amount - min d.amount c.amount else 0) + amtOf ds u)
            = (if d.userId = u then d.amount else 0) + amtOf ds u
          by_cases hdu : d.userId = u
          · simp only [if_pos hdu]
            ring
          · simp only [if_neg hdu]
            ring
        · rw [recdBy_cons, amtOf_cons, ihr]
          simp only [hac]
      · exfalso
        rcases min_rem_cases d.amount c.amount with h | h
        · exact h1 (by rw [h]; exact eps_pos)
        · exact h2 (by rw [h]; exact eps_pos)

end GroupBills

namespace GroupBills

lemma IsIntQ.neg {a : ℚ} (ha : IsIntQ a) : IsIntQ (-a) := by
  rcases ha with ⟨k, rfl⟩
  exact ⟨-k, by push_cast; ring⟩

lemma creditorsOf_cons (p : String × ℚ) (t : List (String × ℚ)) :
    creditorsOf (p :: t)
      = (if eps < p.2 then [⟨p.1, p.2⟩] else []) ++ creditorsOf t := by
  unfold creditorsOf
  rw [List.filterMap_cons]
  by_cases hc : eps < p.2 <;> simp [hc]

lemma debtorsOf_cons (p : String × ℚ) (t : List (String × ℚ)) :
    debtorsOf (p :: t)
      = (if p.2 < -eps then [⟨p.1, -p.2⟩] else []) ++ debtorsOf t := by
  unfold debtorsOf
  rw [List.filterMap_cons]
  by_cases hc : p.2 < -eps <;> simp [hc]

lemma entSum_append (l1 l2 : List Entry) :
    entSum (l1 ++ l2) = entSum l1 + entSum l2 := by
  simp [entSum]

lemma amtOf_append (l1 l2 : List Entry) (u : String) :
    amtOf (l1 ++ l2) u = amtOf l1 u + amtOf l2 u := by
  simp [amtOf, List.filter_append]

lemma amtOf_eq_zero {l : List Entry} {u : String}
    (h : ∀ e ∈ l, e.userId ≠ u) : amtOf l u = 0 := by
  unfold amtOf
  have hfil : l.filter (fun e => e.userId = u) = [] := by
    rw [List.filter_eq_nil_iff]
    intro e he
    simp [h e he]
  rw [hfil]
  simp

lemma mem_creditorsOf_userId {bs : List (String × ℚ)} {e : Entry}
    (he : e ∈ creditorsOf bs) : e.userId ∈ bs.map Prod.fst := by
  rcases List.mem_filterMap.mp he with ⟨p, hp, hfp⟩
  by_cases hcond : eps < p.2
  · rw [if_pos hcond, Option.some_inj] at hfp
    rw [← hfp]
    exact List.mem_map.mpr ⟨p, hp, rfl⟩
  · rw [if_neg hcond] at hfp
    cases hfp

lemma mem_debtorsOf_userId {bs : List (String × ℚ)} {e : Entry}
    (he : e ∈ debtorsOf bs) : e.userId ∈ bs.map Prod.fst := by
  rcases List.mem_filterMap.mp he with ⟨p, hp, hfp⟩
  by_cases hcond : p.2 < -eps
  · rw [if_pos hcond, Option.some_inj] at hfp
    rw [← hfp]
    exact List.mem_map.mpr ⟨p, hp, rfl⟩
  · rw [if_neg hcond] at hfp
    cases hfp

lemma goodEntry_creditorsOf {bs : List (String × ℚ)}
    (hint : ∀ p ∈ bs, IsIntQ p.2) {e : Entry} (he : e ∈ creditorsOf bs) :
    goodEntry e := by
  rcases List.mem_filterMap.mp he with ⟨p, hp, hfp⟩
  by_cases hcond : eps < p.2
  · rw [if_pos hcond, Option.some_inj] at hfp
    rw [← hfp]
    exact ⟨hint p hp, one_le_of_isIntQ_eps_le (hint p hp) (le_of_lt hcond)⟩
  · rw [if_neg hcond] at hfp
    cases hfp

lemma goodEntry_debtorsOf {bs : List (String × ℚ)}
    (hint : ∀ p ∈ bs, IsIntQ p.2) {e : Entry} (he : e ∈ debtorsOf bs) :
    goodEntry e := by
  rcases List.mem_filterMap.mp he with ⟨p, hp, hfp⟩
  by_cases hcond : p.2 < -eps
  · rw [if_pos hcond, Option.some_inj] at hfp
    rw [← hfp]
    refine ⟨(hint p hp).neg, one_le_of_isIntQ_eps_le (hint p hp).neg ?_⟩
    show eps ≤ -p.2
    linarith
  · rw [if_neg hcond] at hfp
    cases hfp

lemma creditors_debtors_sum : ∀ (bs : List (String × ℚ)),
    (∀ p ∈ bs, IsIntQ p.2) →
    entSum (creditorsOf bs) = entSum (debtorsOf bs) + (bs.map Prod.snd).sum := by
  intro bs
  induction bs with
  | nil => intro _; simp [creditorsOf, debtorsOf, entSum]
  | cons q t ih =>
    obtain ⟨q1, q2⟩ := q
    intro hint
    have hint_t : ∀ p ∈ t, IsIntQ p.2 :=
      fun p hp => hint p (List.mem_cons_of_mem _ hp)
    have hq2 : IsIntQ q2 := hint (q1, q2) (List.mem_cons_self _ _)
    have iht := ih hint_t
    rw [creditorsOf_cons, debtorsOf_cons, entSum_append, entSum_append,
      List.map_cons, List.sum_cons]
    by_cases h1 : eps < q2
    · have h2 : ¬(q2 < -eps) := by
        have := eps_pos
        linarith
      rw [if_pos h1, if_neg h2]
      simp only [entSum_cons]
      show q2 + entSum ([] : List Entry) + entSum (creditorsOf t)
        = entSum ([] : List Entry) + entSum (debtorsOf t) + (q2 + (t.map Prod.snd).sum)
      have h0 : entSum ([] : List Entry) = 0 := by simp [entSum]
      rw [h0]
      linarith
    · by_cases h2 : q2 < -eps
      · rw [if_neg h1, if_pos h2]
        simp only [entSum_cons]
        show entSum ([] : List Entry) + entSum (creditorsOf t)
          = -q2 + entSum ([] : List Entry) + entSum (debtorsOf t)
            + (q2 + (t.map Prod.snd).sum)
        have h0 : entSum ([] : List Entry) = 0 := by simp [entSum]
        rw [h0]
        linarith
      · have hq0 : q2 = 0 := eq_zero_of_isIntQ_small hq2 h1 h2
        rw [if_neg h1, if_neg h2]
        show entSum ([] : List Entry) + entSum (creditorsOf t)
          = entSum ([] : List Entry) + entSum (debtorsOf t)
            + (q2 + (t.map Prod.snd).sum)
        have h0 : entSum ([] : List Entry) = 0 := by simp [entSum]
        rw [h0, hq0]
        linarith

end GroupBills

namespace GroupBills

lemma amtOf_creditorsOf : ∀ (bs : List (String × ℚ)), (bs.map Prod.fst).Nodup →
    ∀ {u : String} {v : ℚ}, (u, v) ∈ bs →
    amtOf (creditorsOf bs) u = if eps < v then v else 0 := by
  intro bs
  induction bs with
  | nil => intro _ u v hmem; cases hmem
  | cons q t ih =>
    obtain ⟨q1, q2⟩ := q
    intro hkeys u v hmem
    rw [List.map_cons, List.nodup_cons] at hkeys
    obtain ⟨hq, ht⟩ := hkeys
    rcases List.mem_cons.mp hmem with heq | hmem'
    · injection heq with h1 h2
      subst h1
      subst h2
      rw [creditorsOf_cons, amtOf_append]
      have hrest : amtOf (creditorsOf t) u = 0 := by
        apply amtOf_eq_zero
        intro e he
        intro hcontra
        exact hq (hcontra ▸ mem_creditorsOf_userId he)
      rw [hrest]
      by_cases hc : eps < v
      · simp [hc, amtOf]
      · simp [hc, amtOf]
    · have hut : u ∈ t.map Prod.fst := List.mem_map.mpr ⟨(u, v), hmem', rfl⟩
      have hq1u : q1 ≠ u := fun h => hq (h ▸ hut)
      rw [creditorsOf_cons, amtOf_append, ih ht hmem']
      have hhead : amtOf (if eps < (q1, q2).2 then [⟨(q1, q2).1, (q1, q2).2⟩] else []) u
          = 0 := by
        by_cases hc : eps < q2 <;> simp [hc, amtOf, hq1u]
      rw [hhead]
      ring

lemma amtOf_debtorsOf : ∀ (bs : List (String × ℚ)), (bs.map Prod.fst).Nodup →
    ∀ {u : String} {v : ℚ}, (u, v) ∈ bs →
    amtOf (debtorsOf bs) u = if v < -eps then -v else 0 := by
  intro bs
  induction bs with
  | nil => intro _ u v hmem; cases hmem
  | cons q t ih =>
    obtain ⟨q1, q2⟩ := q
    intro hkeys u v hmem
    rw [List.map_cons, List.nodup_cons] at hkeys
    obtain ⟨hq, ht⟩ := hkeys
    rcases List.mem_cons.mp hmem with heq | hmem'
    · injection heq with h1 h2
      subst h1
      subst h2
      rw [debtorsOf_cons, amtOf_append]
      have hrest : amtOf (debtorsOf t) u = 0 := by
        apply amtOf_eq_zero
        intro e he
        intro hcontra
        exact hq (hcontra ▸ mem_debtorsOf_userId he)
      rw [hrest]
      by_cases hc : v < -eps
      · simp [hc, amtOf]
      · simp [hc, amtOf]
    · have hut : u ∈ t.map Prod.fst := List.mem_map.mpr ⟨(u, v), hmem', rfl⟩
      have hq1u : q1 ≠ u := fun h => hq (h ▸ hut)
      rw [debtorsOf_cons, amtOf_append, ih ht hmem']
      have hhead : amtOf (if (q1, q2).2 < -eps then [⟨(q1, q2).1, -(q1, q2).2⟩] else []) u
          = 0 := by
        by_cases hc : q2 < -eps <;> simp [hc, amtOf, hq1u]
      rw [hhead]
      ring

end GroupBills

namespace GroupBills

/-- C3 (counterexample): the balance map {A: 0.02, B: −0.01, C: −0.01} sums
to exactly zero, but B and C sit exactly at −eps and are excluded from the
debtor partition, so the planner returns no transfers and A's balance stays
at 0.02, which is not within eps = 0.01 of zero. -/
theorem transfer_validity_cex :
    ((([("A", 2 / 100), ("B", -1 / 100), ("C", -1 / 100)]
        : List (String × ℚ)).map Prod.snd).sum = 0) ∧
    recommendedTransfers [("A", 2 / 100), ("B", -1 / 100), ("C", -1 / 100)] = [] ∧
    ¬|applyTransfers
        (recommendedTransfers [("A", 2 / 100), ("B", -1 / 100), ("C", -1 / 100)])
        (fun u => if u = "A" then 2 / 100 else if u = "B" then -1 / 100
          else if u = "C" then -1 / 100 else 0) "A"| ≤ eps := by
  have h2 : recommendedTransfers [("A", 2 / 100), ("B", -1 / 100), ("C", -1 / 100)]
      = [] := by
    norm_num [recommendedTransfers, creditorsOf, debtorsOf, sortByAmountDesc,
      insertDesc, sweepFuel, eps, List.filterMap, String.reduceEq]
  refine ⟨by norm_num, h2, ?_⟩
  rw [h2]
  show ¬|(fun u => if u = "A" then (2 : ℚ) / 100 else if u = "B" then -1 / 100
      else if u = "C" then -1 / 100 else 0) "A"| ≤ eps
  norm_num [eps]
  rw [abs_of_pos (by norm_num)]
  norm_num

/-- C3 (amended): for every balance mapping with pairwise-distinct keys,
integer values, and value sum exactly zero, applying every transfer returned
by the planner — the way the balance computation applies a settled
settlement, crediting the paying `tfrom` member and debiting the receiving
`tto` member — leaves every member's balance exactly zero (in particular
within eps of zero). Integrality is needed: with fractional values a member
within eps of zero is dropped from the partition while still carrying
balance, and sub-eps remainders are silently discarded by the pointer
advances, so the unrestricted claim fails (see the counterexample). -/
theorem transfer_validity_integer (bs : List (String × ℚ))
    (hkeys : (bs.map Prod.fst).Nodup)
    (hint : ∀ p ∈ bs, IsIntQ p.2)
    (hsum : (bs.map Prod.snd).sum = 0)
    (b : String → ℚ) (hb : ∀ p ∈ bs, b p.1 = p.2) :
    ∀ p ∈ bs, applyTransfers (recommendedTransfers bs) b p.1 = 0 := by
  intro p hp
  obtain ⟨u, v⟩ := p
  have hperm_d := sortByAmountDesc_perm (debtorsOf bs)
  have hperm_c := sortByAmountDesc_perm (creditorsOf bs)
  have hgoodD : ∀ e ∈ sortByAmountDesc (debtorsOf bs), goodEntry e :=
    fun e he => goodEntry_debtorsOf hint (hperm_d.mem_iff.mp he)
  have hgoodC : ∀ e ∈ sortByAmountDesc (creditorsOf bs), goodEntry e :=
    fun e he => goodEntry_creditorsOf hint (hperm_c.mem_iff.mp he)
  have hsum_dc : entSum (sortByAmountDesc (debtorsOf bs))
      = entSum (sortByAmountDesc (creditorsOf bs)) := by
    rw [entSum_of_perm hperm_d, entSum_of_perm hperm_c]
    have h := creditors_debtors_sum bs hint
    rw [hsum] at h
    linarith
  have hrt : recommendedTransfers bs
      = sweepFuel ((sortByAmountDesc (debtorsOf bs)).length
          + (sortByAmountDesc (creditorsOf bs)).length)
        (sortByAmountDesc (debtorsOf bs)) (sortByAmountDesc (creditorsOf bs)) := rfl
  obtain ⟨hs, hr⟩ := sweepFuel_exact
    ((sortByAmountDesc (debtorsOf bs)).length
      + (sortByAmountDesc (creditorsOf bs)).length)
    (sortByAmountDesc (debtorsOf bs)) (sortByAmountDesc (creditorsOf bs))
    le_rfl hgoodD hgoodC hsum_dc u
  rw [applyTransfers_eval, hrt, hs, hr,
    amtOf_of_perm hperm_d u, amtOf_of_perm hperm_c u]
  have hbv : b u = v := hb (u, v) hp
  rw [hbv, amtOf_debtorsOf bs hkeys hp, amtOf_creditorsOf bs hkeys hp]
  by_cases h1 : eps < v
  · have h2 : ¬(v < -eps) := by
      have := eps_pos
      linarith
    rw [if_pos h1, if_neg h2]
    ring
  · by_cases h2 : v < -eps
    · rw [if_neg h1, if_pos h2]
      ring
    · have hv0 : v = 0 := eq_zero_of_isIntQ_small (hint (u, v) hp) h1 h2
      rw [if_neg h1, if_neg h2, hv0]
      ring

/-- Witness for `transfer_validity_integer`: the integer balance map
{A: +2, B: −1, C: −1} sums to zero, and applying the planner's transfers
returns member A to balance exactly 0. -/
theorem transfer_validity_integer_witness :
    applyTransfers (recommendedTransfers [("A", 2), ("B", -1), ("C", -1)])
      (fun u => if u = "A" then 2 else if u = "B" then -1
        else if u = "C" then -1 else 0) "A" = 0 :=
  transfer_validity_integer [("A", 2), ("B", -1), ("C", -1)]
    (by decide)
    (by
      intro p hp
      fin_cases hp
      · exact ⟨2, by norm_num⟩
      · exact ⟨-1, by norm_num⟩
      · exact ⟨-1, by norm_num⟩)
    (by norm_num)
    (fun u => if u = "A" then 2 else if u = "B" then -1
      else if u = "C" then -1 else 0)
    (by intro p hp; fin_cases hp <;> simp)
    ("A", 2) (by simp)

end GroupBills
